import Mathlib

/-!
Verification of the persistent (copy-on-write) trie from `src/primer/trie.cpp`.

The trie maps character sequences to type-erased values.  `Get` walks the
structure read-only, `Put` and `Remove` rebuild the path to the affected key
and return a new root.  We embed the node structure and the three operations
and prove the specified algebraic, invariant and termination properties.
-/

namespace BusTub

/-- A stored payload together with its runtime type, modelling the
type-erased value slot of `TrieNodeWithValue<T>`.  The concrete types mirror
the explicit template instantiations in the source (`uint32_t`, `uint64_t`,
`std::string`); three distinct types are enough to express every claim about
runtime type recovery. -/
inductive TrieValue : Type where
  | vU32 : Nat → TrieValue
  | vU64 : Nat → TrieValue
  | vStr : String → TrieValue
  deriving DecidableEq, Repr

/-- The runtime type tag a caller requests from `Get<T>`. -/
inductive Ty : Type where
  | u32
  | u64
  | str
  deriving DecidableEq, Repr

/-- The runtime type of a stored value; `dynamic_cast<const
TrieNodeWithValue<T> *>` succeeds exactly when this tag equals the requested
tag. -/
def tyOf : TrieValue → Ty
  | .vU32 _ => .u32
  | .vU64 _ => .u64
  | .vStr _ => .str

/-- Modelled from the spec: the header `primer/trie.h` defining `TrieNode` /
`TrieNodeWithValue<T>` is not among the supplied sources.  Per the spec's
data model, a Node owns "a mapping from next-character to child node, keys
unique" and a `holds_value` discriminator that is true iff the node carries a
payload.  We represent the `std::map<char, std::shared_ptr<const TrieNode>>`
as an association list with unique keys and fuse the `is_value_node_` flag
with the payload as an `Option` (the flag is true iff the node is a
`TrieNodeWithValue`, i.e. iff the value is present). -/
inductive TrieNode : Type where
  | mk (children : List (Char × TrieNode)) (value : Option TrieValue) : TrieNode

/-- The `children_` map of a node. -/
def TrieNode.children : TrieNode → List (Char × TrieNode)
  | .mk cs _ => cs

/-- The value slot of a node (`some` iff `is_value_node_`). -/
def TrieNode.value : TrieNode → Option TrieValue
  | .mk _ v => v

/-- `TrieNode()`: a fresh node with no children and no value. -/
def emptyNode : TrieNode := .mk [] none

/-- `node->Contains(ch) ? node->children_.at(ch) : nullopt` — lookup in the
children map. -/
def findChild : List (Char × TrieNode) → Char → Option TrieNode
  | [], _ => none
  | (k, w) :: rest, ch => if k = ch then some w else findChild rest ch

/-- `children[ch] = x` on a `std::map`: replace the entry with key `ch` if
present (keeping its position), otherwise add a new entry. -/
def insertChild : List (Char × TrieNode) → Char → TrieNode → List (Char × TrieNode)
  | [], ch, x => [(ch, x)]
  | (k, w) :: rest, ch, x =>
      if k = ch then (ch, x) :: rest else (k, w) :: insertChild rest ch x

/-- `children_.erase(children_.find(ch))`: drop the entry with key `ch`. -/
def eraseChild : List (Char × TrieNode) → Char → List (Char × TrieNode)
  | [], _ => []
  | (k, w) :: rest, ch =>
      if k = ch then rest else (k, w) :: eraseChild rest ch

/-- A `Trie` is a handle on an optional root node (`root_` may be a null
`shared_ptr`). -/
structure Trie : Type where
  root : Option TrieNode

/-- The default-constructed trie: `root_ == nullptr`. -/
def Trie.empty : Trie := ⟨none⟩

/-- The read-only descent shared by `Get`'s loop: consume one key character
per step, failing when the next child is missing. -/
def walk (node : TrieNode) : List Char → Option TrieNode
  | [] => some node
  | ch :: rest =>
      match findChild node.children ch with
      | none => none
      | some c => walk c rest

/-- `Trie::Get<T>(key)` from `trie.cpp`: return `nullptr` when the root is
null, when the walk breaks, when the terminal node holds no value
(`dynamic_cast` of a plain `TrieNode` yields null), or when the stored
value's runtime type differs from the requested one (`dynamic_cast` of a
`TrieNodeWithValue<U>`, `U ≠ T`, yields null); otherwise return the value.
The source's separate empty-key branch is the `walk` base case. -/
def Trie.Get (t : Trie) (τ : Ty) (key : List Char) : Option TrieValue :=
  match t.root with
  | none => none
  | some r =>
      match walk r key with
      | none => none
      | some p =>
          match p.value with
          | none => none
          | some v => if tyOf v = τ then some v else none

/-- The type-agnostic lookup: the value stored at `key`, whatever its runtime
type.  `Get τ` succeeds exactly on this value when its tag is `τ`. -/
def nodeRawGet (n : TrieNode) (key : List Char) : Option TrieValue :=
  match walk n key with
  | none => none
  | some p => p.value

/-- Type-agnostic lookup through the root handle. -/
def Trie.rawGet (t : Trie) (key : List Char) : Option TrieValue :=
  match t.root with
  | none => none
  | some r => nodeRawGet r key

/-- The recursive lambda of `Trie::Put`: at the terminal position build a
`TrieNodeWithValue` carrying the existing children; at a non-terminal
position copy the children map, replace the entry for the next character by
the recursive result (descending into the existing child, or a fresh empty
node when absent), and carry the node's value status verbatim (the source's
two branches — `Clone()` for a value node, plain `TrieNode(children)`
otherwise — both preserve `node->value`). -/
def putDfs (v : TrieValue) : List Char → TrieNode → TrieNode
  | [], node => .mk node.children (some v)
  | ch :: rest, node =>
      let next :=
        match findChild node.children ch with
        | some c => c
        | none => emptyNode
      .mk (insertChild node.children ch (putDfs v rest next)) node.value

/-- `Trie::Put<T>(key, value)`: start from the existing root, or a fresh
empty node when `root_` is null, and rebuild the path to `key`. -/
def Trie.Put (t : Trie) (key : List Char) (v : TrieValue) : Trie :=
  match t.root with
  | none => ⟨some (putDfs v key emptyNode)⟩
  | some r => ⟨some (putDfs v key r)⟩

/-- The recursive lambda of `Trie::Remove`.  The returned `nullptr` (here
`none`) signals "this subtree is now empty" so the parent erases the entry.
At the terminal: a non-value node is returned unchanged; a value node with
children is demoted to a plain node; a childless value node is pruned.
Unwinding: clone the node, update or erase the child entry, and prune the
clone when it ends with no children and no value of its own. -/
def removeDfs : TrieNode → List Char → Option TrieNode
  | node, [] =>
      if node.value.isNone then some node
      else if node.children.isEmpty then none
      else some (.mk node.children none)
  | node, ch :: rest =>
      match findChild node.children ch with
      | none => some node
      | some child =>
          let newChildren :=
            match removeDfs child rest with
            | none => eraseChild node.children ch
            | some nn => insertChild node.children ch nn
          if newChildren.isEmpty && node.value.isNone then none
          else some (.mk newChildren node.value)

/-- `Trie::Remove(key)`: the source invokes the recursive lambda directly on
`root_` without a null check, so a null root is dereferenced
(`node->is_value_node_` / `node->Contains(ch)` on a null pointer) — we model
that fault as `none`.  With a non-null root the lambda's result (possibly a
pruned-away `nullptr`) becomes the new trie's root. -/
def Trie.Remove (t : Trie) (key : List Char) : Option Trie :=
  match t.root with
  | none => none
  | some r => some ⟨removeDfs r key⟩

/-! ### Basic lemmas on the children map -/

theorem findChild_insertChild_self (cs : List (Char × TrieNode)) (ch : Char) (x : TrieNode) :
    findChild (insertChild cs ch x) ch = some x := by
  induction cs with
  | nil => simp [insertChild, findChild]
  | cons p rest ih =>
      obtain ⟨k, w⟩ := p
      by_cases h : k = ch
      · simp [insertChild, h, findChild]
      · simp [insertChild, h, findChild, ih]

theorem findChild_insertChild_ne (cs : List (Char × TrieNode)) (ch c : Char) (x : TrieNode)
    (h : c ≠ ch) : findChild (insertChild cs ch x) c = findChild cs c := by
  have h' : ch ≠ c := Ne.symm h
  induction cs with
  | nil => simp [insertChild, findChild, h']
  | cons p rest ih =>
      obtain ⟨k, w⟩ := p
      by_cases hk : k = ch
      · subst hk
        simp [insertChild, findChild, h']
      · simp [insertChild, hk, findChild, ih]

theorem insertChild_ne_nil (cs : List (Char × TrieNode)) (ch : Char) (x : TrieNode) :
    insertChild cs ch x ≠ [] := by
  cases cs with
  | nil => simp [insertChild]
  | cons p rest =>
      obtain ⟨k, w⟩ := p
      by_cases h : k = ch <;> simp [insertChild, h]

theorem mem_insertChild (cs : List (Char × TrieNode)) (ch : Char) (x : TrieNode)
    (p : Char × TrieNode) (hp : p ∈ insertChild cs ch x) : p = (ch, x) ∨ p ∈ cs := by
  induction cs with
  | nil =>
      simp [insertChild] at hp
      exact Or.inl hp
  | cons q rest ih =>
      obtain ⟨k, w⟩ := q
      by_cases h : k = ch
      · simp [insertChild, h] at hp
        rcases hp with hp | hp
        · exact Or.inl hp
        · exact Or.inr (List.mem_cons_of_mem _ hp)
      · simp [insertChild, h] at hp
        rcases hp with hp | hp
        · exact Or.inr (by simp [hp])
        · rcases ih hp with h1 | h1
          · exact Or.inl h1
          · exact Or.inr (List.mem_cons_of_mem _ h1)

theorem mem_eraseChild (cs : List (Char × TrieNode)) (ch : Char)
    (p : Char × TrieNode) (hp : p ∈ eraseChild cs ch) : p ∈ cs := by
  induction cs with
  | nil => simp [eraseChild] at hp
  | cons q rest ih =>
      obtain ⟨k, w⟩ := q
      by_cases h : k = ch
      · simp [eraseChild, h] at hp
        exact List.mem_cons_of_mem _ hp
      · simp [eraseChild, h] at hp
        rcases hp with hp | hp
        · simp [hp]
        · exact List.mem_cons_of_mem _ (ih hp)

/-! ### Unfolding lemmas for the lookup -/

theorem nodeRawGet_nil (n : TrieNode) : nodeRawGet n [] = n.value := rfl

theorem nodeRawGet_cons (cs : List (Char × TrieNode)) (val : Option TrieValue)
    (ch : Char) (rest : List Char) :
    nodeRawGet (.mk cs val) (ch :: rest) =
      match findChild cs ch with
      | none => none
      | some c => nodeRawGet c rest := by
  cases h : findChild cs ch <;> simp [nodeRawGet, walk, TrieNode.children, h]

theorem nodeRawGet_emptyNode (key : List Char) : nodeRawGet emptyNode key = none := by
  cases key with
  | nil => rfl
  | cons ch rest => simp [emptyNode, nodeRawGet_cons, findChild]

/-- `Get τ` is the type-agnostic lookup filtered by the runtime type tag:
the `dynamic_cast` recovery step in isolation. -/
theorem Get_eq_rawGet (t : Trie) (τ : Ty) (key : List Char) :
    t.Get τ key =
      match t.rawGet key with
      | none => none
      | some v => if tyOf v = τ then some v else none := by
  cases hr : t.root with
  | none => simp [Trie.Get, Trie.rawGet, hr]
  | some r =>
      cases hw : walk r key with
      | none => simp [Trie.Get, Trie.rawGet, nodeRawGet, hr, hw]
      | some p =>
          cases hv : p.value with
          | none => simp [Trie.Get, Trie.rawGet, nodeRawGet, hr, hw, hv]
          | some v => simp [Trie.Get, Trie.rawGet, nodeRawGet, hr, hw, hv]

/-! ### Put: round trip -/

theorem nodeRawGet_putDfs_self (v : TrieValue) :
    ∀ (key : List Char) (node : TrieNode), nodeRawGet (putDfs v key node) key = some v := by
  intro key
  induction key with
  | nil => intro node; rfl
  | cons ch rest ih =>
      intro node
      show nodeRawGet (.mk (insertChild node.children ch _) node.value) (ch :: rest) = some v
      rw [nodeRawGet_cons, findChild_insertChild_self]
      exact ih _

theorem rawGet_Put_self (t : Trie) (key : List Char) (v : TrieValue) :
    (t.Put key v).rawGet key = some v := by
  unfold Trie.Put Trie.rawGet
  cases t.root <;> simp [nodeRawGet_putDfs_self]

/-- C2: `Get<T>(Put<T>(t, k, v), k)` returns `v` for every trie `t`, key `k`
(the empty key included) and value `v`; consequently `Put` overwrites, so
`Get(Put(Put(t, k, v1), k, v2), k) = v2`. -/
theorem claimC2 :
    (∀ (t : Trie) (k : List Char) (v : TrieValue), (t.Put k v).Get (tyOf v) k = some v)
    ∧ ∀ (t : Trie) (k : List Char) (v1 v2 : TrieValue),
        ((t.Put k v1).Put k v2).Get (tyOf v2) k = some v2 := by
  have h : ∀ (t : Trie) (k : List Char) (v : TrieValue), (t.Put k v).Get (tyOf v) k = some v := by
    intro t k v
    rw [Get_eq_rawGet, rawGet_Put_self]
    simp
  exact ⟨h, fun t k v1 v2 => h (t.Put k v1) k v2⟩

/-! ### Type-mismatch safety -/

/-- C4: if key `k` maps to a value `v` in `t` and the requested runtime type
differs from `v`'s, `Get` returns absence — the `dynamic_cast` yields null
and the mismatch is indistinguishable from the key being absent. -/
theorem claimC4 (t : Trie) (k : List Char) (v : TrieValue) (τ : Ty)
    (hmap : t.rawGet k = some v) (hty : tyOf v ≠ τ) : t.Get τ k = none := by
  rw [Get_eq_rawGet, hmap]
  simp [hty]

theorem claimC4_witness :
    (Trie.empty.Put ['a'] (TrieValue.vU32 1)).rawGet ['a'] = some (TrieValue.vU32 1)
    ∧ tyOf (TrieValue.vU32 1) ≠ Ty.str
    ∧ (Trie.empty.Put ['a'] (TrieValue.vU32 1)).Get Ty.str ['a'] = none :=
  ⟨rfl, by decide, claimC4 (Trie.empty.Put ['a'] (TrieValue.vU32 1)) ['a']
    (TrieValue.vU32 1) Ty.str rfl (by decide)⟩

/-! ### Put: non-interference with other keys -/

theorem nodeRawGet_putDfs_ne (v : TrieValue) :
    ∀ (k1 k2 : List Char) (node : TrieNode), k1 ≠ k2 →
      nodeRawGet (putDfs v k1 node) k2 = nodeRawGet node k2 := by
  intro k1
  induction k1 with
  | nil =>
      intro k2 node hne
      cases node with
      | mk cs val =>
          cases k2 with
          | nil => exact absurd rfl hne
          | cons b r2 =>
              simp only [putDfs, TrieNode.children]
              rw [nodeRawGet_cons, nodeRawGet_cons]
  | cons a r1 ih =>
      intro k2 node hne
      cases node with
      | mk cs val =>
          cases k2 with
          | nil => rfl
          | cons b r2 =>
              by_cases hab : b = a
              · subst hab
                have hr : r1 ≠ r2 := fun e => hne (congrArg (List.cons b) e)
                simp only [putDfs, TrieNode.children, TrieNode.value, nodeRawGet_cons,
                  findChild_insertChild_self]
                cases hf : findChild cs b with
                | none =>
                    simp only [hf]
                    rw [ih r2 emptyNode hr, nodeRawGet_emptyNode]
                | some c =>
                    simp only [hf]
                    exact ih r2 c hr
              · simp only [putDfs, TrieNode.children, TrieNode.value, nodeRawGet_cons,
                  findChild_insertChild_ne cs a b _ hab]

/-- C5: `Put` on key `k1` leaves the lookup of every other key `k2`
unchanged, including when one key is a prefix of the other. -/
theorem claimC5 (t : Trie) (k1 k2 : List Char) (v : TrieValue) (τ : Ty) (h : k1 ≠ k2) :
    (t.Put k1 v).Get τ k2 = t.Get τ k2 := by
  have hraw : (t.Put k1 v).rawGet k2 = t.rawGet k2 := by
    cases t with
    | mk root =>
        cases root with
        | none =>
            show nodeRawGet (putDfs v k1 emptyNode) k2 = none
            rw [nodeRawGet_putDfs_ne v k1 k2 emptyNode h, nodeRawGet_emptyNode]
        | some r => exact nodeRawGet_putDfs_ne v k1 k2 r h
  rw [Get_eq_rawGet, Get_eq_rawGet, hraw]

theorem claimC5_witness :
    (['a'] : List Char) ≠ ['b']
    ∧ ((Trie.empty.Put ['b'] (TrieValue.vU32 7)).Put ['a'] (TrieValue.vU64 9)).Get Ty.u32 ['b']
      = (Trie.empty.Put ['b'] (TrieValue.vU32 7)).Get Ty.u32 ['b'] :=
  ⟨by decide, claimC5 (Trie.empty.Put ['b'] (TrieValue.vU32 7)) ['a'] ['b']
    (TrieValue.vU64 9) Ty.u32 (by decide)⟩

/-! ### Remove on a null root -/

/-- C1: the claim fails on the code.  `Trie::Remove` passes `root_` to its
recursive lambda without a null check; on the default-constructed trie
(`root_ == nullptr`, no key mapped) the lambda immediately dereferences the
null pointer.  The key `"a"` is not mapped, yet `Remove` faults (modelled as
`none`) instead of returning an equivalent trie. -/
theorem claimC1 :
    Trie.empty.rawGet ['a'] = none ∧ Trie.empty.Remove ['a'] = none :=
  ⟨rfl, rfl⟩

/-- C3: the claim fails on the code at the all-keys-removed case.
`Remove(Put(empty, "a", v), "a")` succeeds and yields the empty (null-root)
trie, but applying `Remove` to that result dereferences the null root, so
`Remove(Remove(t, k), k)` faults where `Remove(t, k)` is defined. -/
theorem claimC3 :
    (Trie.empty.Put ['a'] (TrieValue.vU32 1)).Remove ['a'] = some Trie.empty
    ∧ Trie.empty.Remove ['a'] = none :=
  ⟨rfl, rfl⟩

/-! ### Well-formedness: unique keys in every children map

The source stores children in a `std::map<char, ...>`, whose keys are unique
by type.  The association-list embedding makes that typing invariant an
explicit predicate on reachable nodes. -/

/-- The children list binds each character at most once (first component
keys are pairwise distinct). -/
def noDupKeys : List (Char × TrieNode) → Prop
  | [] => True
  | (k, _) :: rest => findChild rest k = none ∧ noDupKeys rest

/-- Every children map reachable from the node has unique keys — the
invariant `std::map` enforces by construction. -/
inductive WF : TrieNode → Prop where
  | mk (cs : List (Char × TrieNode)) (val : Option TrieValue)
      (hdup : noDupKeys cs)
      (hch : ∀ c n, (c, n) ∈ cs → WF n) : WF (.mk cs val)

/-- A trie handle whose root (when present) is well-formed. -/
def TrieWF (t : Trie) : Prop := ∀ r, t.root = some r → WF r

theorem WF_emptyNode : WF emptyNode :=
  WF.mk [] none trivial (fun c n h => absurd h (by simp))

theorem findChild_mem (cs : List (Char × TrieNode)) (ch : Char) (c : TrieNode)
    (h : findChild cs ch = some c) : (ch, c) ∈ cs := by
  induction cs with
  | nil => simp [findChild] at h
  | cons p rest ih =>
      obtain ⟨k, w⟩ := p
      by_cases hk : k = ch
      · subst hk
        simp [findChild] at h
        rw [← h]
        exact List.mem_cons_self _ _
      · simp [findChild, hk] at h
        exact List.mem_cons_of_mem _ (ih h)

theorem noDupKeys_insertChild (cs : List (Char × TrieNode)) (ch : Char) (x : TrieNode)
    (h : noDupKeys cs) : noDupKeys (insertChild cs ch x) := by
  induction cs with
  | nil => simp [insertChild, noDupKeys, findChild]
  | cons p rest ih =>
      obtain ⟨k, w⟩ := p
      obtain ⟨h1, h2⟩ := h
      by_cases hk : k = ch
      · subst hk
        simp only [insertChild, if_pos rfl]
        exact ⟨h1, h2⟩
      · simp only [insertChild, if_neg hk]
        refine ⟨?_, ih h2⟩
        rw [findChild_insertChild_ne rest ch k x hk]
        exact h1

theorem findChild_eraseChild_self (cs : List (Char × TrieNode)) (ch : Char)
    (h : noDupKeys cs) : findChild (eraseChild cs ch) ch = none := by
  induction cs with
  | nil => simp [eraseChild, findChild]
  | cons p rest ih =>
      obtain ⟨k, w⟩ := p
      obtain ⟨h1, h2⟩ := h
      by_cases hk : k = ch
      · subst hk
        simp only [eraseChild, if_pos rfl]
        exact h1
      · simp only [eraseChild, if_neg hk, findChild]
        exact ih h2

/-! ### Put-then-Remove round trip -/

theorem removeDfs_putDfs_step (v : TrieValue) (cs : List (Char × TrieNode))
    (val : Option TrieValue) (ch : Char) (rest : List Char) (next : TrieNode)
    (hdup : noDupKeys cs)
    (hIH : ∀ n'', removeDfs (putDfs v rest next) rest = some n'' →
      nodeRawGet n'' rest = none) :
    ∀ n', removeDfs (.mk (insertChild cs ch (putDfs v rest next)) val) (ch :: rest) = some n' →
      nodeRawGet n' (ch :: rest) = none := by
  intro n' hrem
  simp only [removeDfs, TrieNode.children, TrieNode.value,
    findChild_insertChild_self] at hrem
  cases hR : removeDfs (putDfs v rest next) rest with
  | none =>
      simp only [hR] at hrem
      split at hrem
      · exact Option.noConfusion hrem
      · injection hrem with h
        subst h
        rw [nodeRawGet_cons,
          findChild_eraseChild_self _ ch (noDupKeys_insertChild cs ch _ hdup)]
  | some nn =>
      simp only [hR] at hrem
      split at hrem
      · exact Option.noConfusion hrem
      · injection hrem with h
        subst h
        rw [nodeRawGet_cons, findChild_insertChild_self]
        exact hIH nn hR

theorem removeDfs_putDfs (v : TrieValue) :
    ∀ (key : List Char) (node : TrieNode), WF node →
      ∀ n', removeDfs (putDfs v key node) key = some n' → nodeRawGet n' key = none := by
  intro key
  induction key with
  | nil =>
      intro node _ n' hrem
      cases node with
      | mk cs val =>
          simp only [putDfs, TrieNode.children] at hrem
          simp only [removeDfs, TrieNode.value, TrieNode.children, Option.isNone_some,
            Bool.false_eq_true, if_false] at hrem
          split at hrem
          · exact Option.noConfusion hrem
          · injection hrem with h
            subst h
            rfl
  | cons ch rest ih =>
      intro node hwf n' hrem
      cases node with
      | mk cs val =>
          cases hwf with
          | mk _ _ hdup hch =>
              simp only [putDfs, TrieNode.children, TrieNode.value] at hrem
              cases hf : findChild cs ch with
              | none =>
                  simp only [hf] at hrem
                  exact removeDfs_putDfs_step v cs val ch rest emptyNode hdup
                    (fun n'' h => ih emptyNode WF_emptyNode n'' h) n' hrem
              | some c0 =>
                  simp only [hf] at hrem
                  exact removeDfs_putDfs_step v cs val ch rest c0 hdup
                    (fun n'' h => ih c0 (hch ch c0 (findChild_mem cs ch c0 hf)) n'' h)
                    n' hrem

/-- C6: for every well-formed prior state `t` (children maps have the unique
keys `std::map` guarantees), `Get(Remove(Put(t, k, v), k), k)` is absence:
`Remove` after `Put` always succeeds (the put result's root is non-null) and
deletes the mapping just inserted. -/
theorem claimC6 (t : Trie) (k : List Char) (v : TrieValue) (τ : Ty) (t' : Trie)
    (hwf : TrieWF t) (hrem : (t.Put k v).Remove k = some t') : t'.Get τ k = none := by
  have key : ∀ (root0 : TrieNode), WF root0 →
      ∀ t'', (⟨some (putDfs v k root0)⟩ : Trie).Remove k = some t'' →
        t''.rawGet k = none := by
    intro root0 hwf0 t'' h
    simp only [Trie.Remove] at h
    injection h with h
    subst h
    cases h2 : removeDfs (putDfs v k root0) k with
    | none => simp [Trie.rawGet, h2]
    | some n' =>
        simp only [Trie.rawGet, h2]
        exact removeDfs_putDfs v k root0 hwf0 n' h2
  have hraw : t'.rawGet k = none := by
    cases t with
    | mk root =>
        cases root with
        | none => exact key emptyNode WF_emptyNode t' hrem
        | some r => exact key r (hwf r rfl) t' hrem
  rw [Get_eq_rawGet, hraw]

theorem claimC6_witness :
    TrieWF Trie.empty
    ∧ (Trie.empty.Put ['a'] (TrieValue.vU32 3)).Remove ['a'] = some Trie.empty
    ∧ Trie.empty.Get Ty.u32 ['a'] = none :=
  ⟨fun _ h => Option.noConfusion h, rfl,
    claimC6 Trie.empty ['a'] (TrieValue.vU32 3) Ty.u32 Trie.empty
      (fun _ h => Option.noConfusion h) rfl⟩

/-! ### The pruning invariant -/

/-- Every node reachable from here holds a value or has at least one child:
no valueless, childless node survives. -/
inductive Pruned : TrieNode → Prop where
  | mk (cs : List (Char × TrieNode)) (val : Option TrieValue)
      (hnz : val.isSome = true ∨ cs ≠ [])
      (hch : ∀ c n, (c, n) ∈ cs → Pruned n) : Pruned (.mk cs val)

/-- The invariant on a trie handle: a present root is pruned throughout. -/
def TrieInv (t : Trie) : Prop := ∀ r, t.root = some r → Pruned r

theorem pruned_children (n : TrieNode) (h : Pruned n) :
    ∀ c m, (c, m) ∈ n.children → Pruned m := by
  cases h with
  | mk cs val hnz hch => exact hch

theorem pruned_putDfs (v : TrieValue) :
    ∀ (key : List Char) (node : TrieNode),
      (∀ c n, (c, n) ∈ node.children → Pruned n) → Pruned (putDfs v key node) := by
  intro key
  induction key with
  | nil =>
      intro node hch
      exact Pruned.mk _ _ (Or.inl rfl) hch
  | cons ch rest ih =>
      intro node hch
      refine Pruned.mk _ _ (Or.inr (insertChild_ne_nil _ _ _)) ?_
      intro c n hmem
      rcases mem_insertChild _ _ _ _ hmem with h | h
      · injection h with h1 h2
        subst h2
        apply ih
        cases hf : findChild node.children ch with
        | none =>
            intro c' n' h'
            simp [emptyNode, TrieNode.children] at h'
        | some c0 =>
            exact pruned_children c0 (hch ch c0 (findChild_mem _ _ _ hf))
      · exact hch c n h

/-- The negated pruning guard of `Remove` yields exactly the `Pruned` shape
condition. -/
theorem not_prune_cond (cs : List (Char × TrieNode)) (val : Option TrieValue)
    (h : ¬((cs.isEmpty && val.isNone) = true)) : val.isSome = true ∨ cs ≠ [] := by
  cases val with
  | some v => exact Or.inl rfl
  | none =>
      refine Or.inr ?_
      intro e
      subst e
      exact h rfl

theorem pruned_removeDfs :
    ∀ (key : List Char) (node : TrieNode), Pruned node →
      ∀ n', removeDfs node key = some n' → Pruned n' := by
  intro key
  induction key with
  | nil =>
      intro node hpr n' hrem
      cases node with
      | mk cs val =>
          cases val with
          | none =>
              simp only [removeDfs, TrieNode.value, Option.isNone_none, if_true] at hrem
              injection hrem with h
              subst h
              exact hpr
          | some v =>
              simp only [removeDfs, TrieNode.value, TrieNode.children, Option.isNone_some,
                Bool.false_eq_true, if_false] at hrem
              split at hrem
              · exact Option.noConfusion hrem
              next hcs =>
                injection hrem with h
                subst h
                refine Pruned.mk _ _ (Or.inr ?_) (pruned_children _ hpr)
                intro e
                subst e
                exact hcs rfl
  | cons ch rest ih =>
      intro node hpr n' hrem
      cases node with
      | mk cs val =>
          simp only [removeDfs, TrieNode.children, TrieNode.value] at hrem
          cases hf : findChild cs ch with
          | none =>
              simp only [hf] at hrem
              injection hrem with h
              subst h
              exact hpr
          | some child =>
              simp only [hf] at hrem
              have hchild : Pruned child :=
                pruned_children _ hpr ch child (findChild_mem _ _ _ hf)
              cases hR : removeDfs child rest with
              | none =>
                  simp only [hR] at hrem
                  split at hrem
                  · exact Option.noConfusion hrem
                  next hcond =>
                    injection hrem with h
                    subst h
                    refine Pruned.mk _ _ (not_prune_cond _ _ hcond) ?_
                    intro c n hmem
                    exact pruned_children _ hpr c n (mem_eraseChild _ _ _ hmem)
              | some nn =>
                  simp only [hR] at hrem
                  split at hrem
                  · exact Option.noConfusion hrem
                  next hcond =>
                    injection hrem with h
                    subst h
                    refine Pruned.mk _ _ (not_prune_cond _ _ hcond) ?_
                    intro c n hmem
                    rcases mem_insertChild _ _ _ _ hmem with h | h
                    · injection h with h1 h2
                      rw [h2]
                      exact ih child hchild nn hR
                    · exact pruned_children _ hpr c n h

/-! ### Operation sequences -/

/-- One caller-visible update: `Put` with a key and value, or `Remove` with
a key. -/
inductive TrieOp : Type where
  | put (key : List Char) (v : TrieValue)
  | del (key : List Char)

/-- Apply one operation; `Remove`'s null-root fault propagates as `none`. -/
def applyOp (t : Trie) : TrieOp → Option Trie
  | .put k v => some (t.Put k v)
  | .del k => t.Remove k

/-- Apply a sequence of operations left to right, stopping at a fault. -/
def applySeq : Trie → List TrieOp → Option Trie
  | t, [] => some t
  | t, op :: rest =>
      match applyOp t op with
      | none => none
      | some t' => applySeq t' rest

theorem trieInv_Put (t : Trie) (k : List Char) (v : TrieValue) (h : TrieInv t) :
    TrieInv (t.Put k v) := by
  cases t with
  | mk root =>
      cases root with
      | none =>
          intro r hr
          injection hr with hr
          subst hr
          exact pruned_putDfs v k emptyNode
            (fun c n hm => absurd hm (by simp [emptyNode, TrieNode.children]))
      | some r0 =>
          intro r hr
          injection hr with hr
          subst hr
          exact pruned_putDfs v k r0 (pruned_children r0 (h r0 rfl))

theorem trieInv_Remove (t : Trie) (k : List Char) (t' : Trie) (h : TrieInv t)
    (hrem : t.Remove k = some t') : TrieInv t' := by
  cases t with
  | mk root =>
      cases root with
      | none => exact Option.noConfusion hrem
      | some r0 =>
          injection hrem with hrem
          subst hrem
          intro r hr
          exact pruned_removeDfs k r0 (h r0 rfl) r hr

theorem applySeq_inv : ∀ (ops : List TrieOp) (t0 t : Trie), TrieInv t0 →
    applySeq t0 ops = some t → TrieInv t := by
  intro ops
  induction ops with
  | nil =>
      intro t0 t h0 hap
      injection hap with hap
      subst hap
      exact h0
  | cons op rest ih =>
      intro t0 t h0 hap
      cases op with
      | put k v => exact ih (t0.Put k v) t (trieInv_Put t0 k v h0) hap
      | del k =>
          simp only [applySeq, applyOp] at hap
          cases hR : t0.Remove k with
          | none =>
              rw [hR] at hap
              exact Option.noConfusion hap
          | some t1 =>
              simp only [hR] at hap
              exact ih t1 t (trieInv_Remove t0 k t1 h0 hR) hap

/-- C7: starting from the empty trie, after any finite sequence of `Put` and
`Remove` operations that completes without faulting, no node reachable from
the resulting root has both zero children and no value — `Put` never
constructs such a node and `Remove` prunes them eagerly.  (The code is in
fact stricter than the claim allows: not even the root is left as an
explicitly empty node; the empty result is the null-root trie.) -/
theorem claimC7 (ops : List TrieOp) (t : Trie)
    (h : applySeq Trie.empty ops = some t) : TrieInv t :=
  applySeq_inv ops Trie.empty t (fun _ hr => Option.noConfusion hr) h

theorem claimC7_witness :
    applySeq Trie.empty [TrieOp.put ['a'] (TrieValue.vU32 1), TrieOp.del ['a']]
      = some Trie.empty
    ∧ TrieInv Trie.empty :=
  ⟨rfl, claimC7 [TrieOp.put ['a'] (TrieValue.vU32 1), TrieOp.del ['a']] Trie.empty rfl⟩

/-! ### The all-keys-removed case -/

theorem pruned_exists_mapped (n : TrieNode) (h : Pruned n) :
    ∃ (k : List Char) (v : TrieValue), nodeRawGet n k = some v := by
  induction h with
  | mk cs val hnz hch ih =>
      cases val with
      | some v => exact ⟨[], v, rfl⟩
      | none =>
          cases cs with
          | nil =>
              rcases hnz with h1 | h1
              · simp at h1
              · exact absurd rfl h1
          | cons p rest =>
              obtain ⟨c, m⟩ := p
              obtain ⟨k, v, hk⟩ := ih c m (List.mem_cons_self _ _)
              refine ⟨c :: k, v, ?_⟩
              rw [nodeRawGet_cons]
              simp only [findChild, if_pos rfl]
              exact hk

/-- C10: when `Remove` succeeds on an invariant-respecting trie and its
result maps no key at all, the returned handle has an absent (null) root —
the empty map is never represented by a reachable valueless, childless root
node. -/
theorem claimC10 (t t' : Trie) (k : List Char) (hinv : TrieInv t)
    (hrem : t.Remove k = some t') (hempty : ∀ k', t'.rawGet k' = none) :
    t'.root = none := by
  cases hr : t'.root with
  | none => rfl
  | some n =>
      have hpr : Pruned n := trieInv_Remove t k t' hinv hrem n hr
      obtain ⟨k0, v0, hk0⟩ := pruned_exists_mapped n hpr
      have hsome : t'.rawGet k0 = some v0 := by
        simp [Trie.rawGet, hr, hk0]
      rw [hempty k0] at hsome
      exact Option.noConfusion hsome

theorem claimC10_witness :
    TrieInv (Trie.empty.Put ['a'] (TrieValue.vU32 2))
    ∧ (Trie.empty.Put ['a'] (TrieValue.vU32 2)).Remove ['a'] = some Trie.empty
    ∧ Trie.empty.root = none :=
  ⟨trieInv_Put Trie.empty ['a'] (TrieValue.vU32 2) (fun _ h => Option.noConfusion h),
   rfl,
   claimC10 (Trie.empty.Put ['a'] (TrieValue.vU32 2)) Trie.empty ['a']
     (trieInv_Put Trie.empty ['a'] (TrieValue.vU32 2) (fun _ h => Option.noConfusion h))
     rfl (fun _ => rfl)⟩

/-! ### Copy-on-write frame property of Put -/

/-- C8: at a non-terminal position on the key's path, the node `Put`
rebuilds carries the prior node's value status and payload verbatim, its
children map agrees with the prior one at every character other than the
next key unit, the entry for the next key unit is exactly the recursive
result built below the existing child (or below a fresh empty node when no
child existed), and intermediate nodes created where none existed are
valueless. -/
theorem claimC8 (node : TrieNode) (ch : Char) (rest : List Char) (v : TrieValue) :
    (putDfs v (ch :: rest) node).value = node.value
    ∧ (∀ c, c ≠ ch →
        findChild (putDfs v (ch :: rest) node).children c = findChild node.children c)
    ∧ (∀ c0, findChild node.children ch = some c0 →
        findChild (putDfs v (ch :: rest) node).children ch = some (putDfs v rest c0))
    ∧ (findChild node.children ch = none →
        findChild (putDfs v (ch :: rest) node).children ch
          = some (putDfs v rest emptyNode))
    ∧ (putDfs v (ch :: rest) emptyNode).value = none := by
  refine ⟨rfl, ?_, ?_, ?_, rfl⟩
  · intro c hc
    exact findChild_insertChild_ne _ _ _ _ hc
  · intro c0 h
    show findChild (insertChild node.children ch _) ch = _
    rw [findChild_insertChild_self, h]
  · intro h
    show findChild (insertChild node.children ch _) ch = _
    rw [findChild_insertChild_self, h]

theorem claimC8_witness :
    ('b' : Char) ≠ 'a'
    ∧ findChild (putDfs (TrieValue.vStr "x") ['a']
        (TrieNode.mk [('b', TrieNode.mk [] (some (TrieValue.vU32 5)))]
          (some (TrieValue.vU64 8)))).children 'b'
      = findChild (TrieNode.mk [('b', TrieNode.mk [] (some (TrieValue.vU32 5)))]
          (some (TrieValue.vU64 8))).children 'b' :=
  ⟨by decide,
    (claimC8 (TrieNode.mk [('b', TrieNode.mk [] (some (TrieValue.vU32 5)))]
      (some (TrieValue.vU64 8))) 'a' [] (TrieValue.vStr "x")).2.1 'b' (by decide)⟩

/-! ### Termination: the recursion consumes one key unit per step -/

/-- `Get`'s walk instrumented with explicit fuel; the outer `none` means the
budget ran out before the walk finished. -/
def walkF : Nat → TrieNode → List Char → Option (Option TrieNode)
  | 0, _, _ => none
  | _ + 1, node, [] => some (some node)
  | fuel + 1, node, ch :: rest =>
      match findChild node.children ch with
      | none => some none
      | some c => walkF fuel c rest

/-- `Put`'s recursive construction instrumented with explicit fuel. -/
def putDfsF (v : TrieValue) : Nat → List Char → TrieNode → Option TrieNode
  | 0, _, _ => none
  | _ + 1, [], node => some (.mk node.children (some v))
  | fuel + 1, ch :: rest, node =>
      let next :=
        match findChild node.children ch with
        | some c => c
        | none => emptyNode
      match putDfsF v fuel rest next with
      | none => none
      | some sub => some (.mk (insertChild node.children ch sub) node.value)

/-- `Remove`'s recursive descent instrumented with explicit fuel. -/
def removeDfsF : Nat → TrieNode → List Char → Option (Option TrieNode)
  | 0, _, _ => none
  | _ + 1, node, [] =>
      some (if node.value.isNone then some node
        else if node.children.isEmpty then none
        else some (.mk node.children none))
  | fuel + 1, node, ch :: rest =>
      match findChild node.children ch with
      | none => some (some node)
      | some child =>
          match removeDfsF fuel child rest with
          | none => none
          | some sub =>
              let newChildren :=
                match sub with
                | none => eraseChild node.children ch
                | some nn => insertChild node.children ch nn
              some (if newChildren.isEmpty && node.value.isNone then none
                else some (.mk newChildren node.value))

theorem walkF_spec : ∀ (key : List Char) (fuel : Nat) (node : TrieNode),
    key.length < fuel → walkF fuel node key = some (walk node key) := by
  intro key
  induction key with
  | nil =>
      intro fuel node h
      cases fuel with
      | zero => exact absurd h (Nat.not_lt_zero _)
      | succ f => rfl
  | cons ch rest ih =>
      intro fuel node h
      cases fuel with
      | zero => exact absurd h (Nat.not_lt_zero _)
      | succ f =>
          cases hf : findChild node.children ch with
          | none => simp only [walkF, walk, hf]
          | some c =>
              simp only [walkF, walk, hf]
              exact ih f c (Nat.lt_of_succ_lt_succ h)

theorem putDfsF_spec (v : TrieValue) : ∀ (key : List Char) (fuel : Nat) (node : TrieNode),
    key.length < fuel → putDfsF v fuel key node = some (putDfs v key node) := by
  intro key
  induction key with
  | nil =>
      intro fuel node h
      cases fuel with
      | zero => exact absurd h (Nat.not_lt_zero _)
      | succ f => rfl
  | cons ch rest ih =>
      intro fuel node h
      cases fuel with
      | zero => exact absurd h (Nat.not_lt_zero _)
      | succ f =>
          simp only [putDfsF, putDfs]
          rw [ih f _ (Nat.lt_of_succ_lt_succ h)]

theorem removeDfsF_spec : ∀ (key : List Char) (fuel : Nat) (node : TrieNode),
    key.length < fuel → removeDfsF fuel node key = some (removeDfs node key) := by
  intro key
  induction key with
  | nil =>
      intro fuel node h
      cases fuel with
      | zero => exact absurd h (Nat.not_lt_zero _)
      | succ f => rfl
  | cons ch rest ih =>
      intro fuel node h
      cases fuel with
      | zero => exact absurd h (Nat.not_lt_zero _)
      | succ f =>
          cases hf : findChild node.children ch with
          | none => simp only [removeDfsF, removeDfs, hf]
          | some child =>
              simp only [removeDfsF, removeDfs, hf]
              rw [ih f child (Nat.lt_of_succ_lt_succ h)]

/-- C9: each of `Get`'s walk, `Put`'s recursive construction and `Remove`'s
recursive descent completes within `key.length + 1` steps — the
fuel-instrumented variants never exhaust that budget and agree with the
structurally recursive definitions, so all three operations are total and
bounded by the key length. -/
theorem claimC9 (node : TrieNode) (key : List Char) (v : TrieValue) :
    walkF (key.length + 1) node key = some (walk node key)
    ∧ putDfsF v (key.length + 1) key node = some (putDfs v key node)
    ∧ removeDfsF (key.length + 1) node key = some (removeDfs node key) :=
  ⟨walkF_spec key _ node (Nat.lt_succ_self _),
   putDfsF_spec v key _ node (Nat.lt_succ_self _),
   removeDfsF_spec key _ node (Nat.lt_succ_self _)⟩

end BusTub
